import Mathlib

/-!
Verification of the Nelder–Mead simplex minimizer `seehuhn.de/go/minimize`
(`simplex.go`), as a shallow embedding.

The Go code keeps one flat buffer `X : []float64` of `(n+4)*n` numbers and
addresses it through `Point(i) = X[i*n:(i+1)*n]`.  Every read and write in the
algorithm is aligned to one of these `n+4` slots, so the buffer is embedded as
a slot map `pts : ℕ → List α` (slot index ↦ point).  Floating point arithmetic
is embedded as exact arithmetic in an arbitrary field (instantiated at `ℚ` for
concrete evaluation); the ordering predicate `Interface.Less` is an abstract
boolean function on points, exactly as in the source.

The memoizing wrapper (`wrapper.Get`) keeps a flat cache of
`(n+1)*(n+4)` floats, conceptually `n+4` blocks of `n+1` entries
(`n` coordinates plus the cached value), initialised to NaN.  All of its copies
are block-aligned, so the cache is embedded as a list of `n+4` blocks whose
cells are either a rational value or the NaN sentinel.
-/

namespace Minimize

variable {α : Type}

/-- Semantics of the Go builtin `copy(dst, src)` as a value: the first
`min |dst| |src|` elements of `dst` are replaced by those of `src`, the rest
of `dst` is kept.  (Go's `copy` is overlap-safe, like `memmove`.) -/
def goCopy (dst src : List α) : List α :=
  src.take dst.length ++ dst.drop src.length

theorem goCopy_length (dst src : List α) : (goCopy dst src).length = dst.length := by
  simp only [goCopy, List.length_append, List.length_take, List.length_drop]
  omega

theorem goCopy_of_length_eq {dst src : List α} (h : src.length = dst.length) :
    goCopy dst src = src := by
  simp [goCopy, h, List.take_of_length_le (Nat.le_of_eq h.symm), List.take_length,
    List.drop_eq_nil_of_le (Nat.le_of_eq h)]

/-- One step of the binary search inside `state.Insert` (`simplex.go:91-99`):
`h := (i+j)/2` (the Go source computes `int(uint(i+j) >> 1)` only to avoid
machine overflow, which cannot happen over `ℕ`); if `!Less(src, h)` the lower
bound moves to `h+1`, otherwise the upper bound moves to `h`.  Here
`p h = Less(src, h)`. -/
def bstep (p : ℕ → Bool) (i j : ℕ) : ℕ × ℕ :=
  let m := (i + j) / 2
  if p m then (i, m) else (m + 1, j)

/-- The binary-search loop of `state.Insert`, made structurally recursive on a
fuel argument.  `fuel = j - i` always suffices because the width `j - i`
strictly decreases on every step. -/
def bsearchAux (p : ℕ → Bool) : ℕ → ℕ → ℕ → ℕ
  | 0, i, _ => i
  | fuel + 1, i, j =>
    if i < j then
      let t := bstep p i j
      bsearchAux p fuel t.1 t.2
    else i

/-- The binary search of `state.Insert` over the half-open interval `[i, j)`:
the value of the loop variable `i` (equal to `j`) on loop exit. -/
def bsearch (p : ℕ → Bool) (i j : ℕ) : ℕ :=
  bsearchAux p (j - i) i j

theorem bstep_width {p : ℕ → Bool} {i j : ℕ} (h : i < j) :
    (bstep p i j).2 - (bstep p i j).1 < j - i := by
  unfold bstep
  dsimp only
  split <;> simp only <;> omega

theorem bstep_le_left {p : ℕ → Bool} {i j : ℕ} (h : i < j) : i ≤ (bstep p i j).1 := by
  unfold bstep
  dsimp only
  split <;> simp only <;> omega

theorem bstep_le_right {p : ℕ → Bool} {i j : ℕ} (h : i < j) : (bstep p i j).2 ≤ j := by
  unfold bstep
  dsimp only
  split <;> simp only <;> omega

theorem bstep_le {p : ℕ → Bool} {i j : ℕ} (h : i < j) : (bstep p i j).1 ≤ (bstep p i j).2 := by
  unfold bstep
  dsimp only
  split <;> simp only <;> omega

theorem bsearchAux_le_left (p : ℕ → Bool) :
    ∀ fuel i j, i ≤ bsearchAux p fuel i j := by
  intro fuel
  induction fuel with
  | zero => intro i j; simp [bsearchAux]
  | succ fuel ih =>
    intro i j
    unfold bsearchAux
    split
    · next h =>
      exact le_trans (bstep_le_left h) (ih _ _)
    · exact le_rfl

theorem bsearchAux_le_right (p : ℕ → Bool) :
    ∀ fuel i j, i ≤ j → bsearchAux p fuel i j ≤ j := by
  intro fuel
  induction fuel with
  | zero => intro i j h; simpa [bsearchAux] using h
  | succ fuel ih =>
    intro i j h
    unfold bsearchAux
    split
    · next hlt =>
      exact le_trans (ih _ _ (bstep_le hlt)) (bstep_le_right hlt)
    · exact h

theorem bsearchAux_pred_true (p : ℕ → Bool) :
    ∀ fuel i j, j - i ≤ fuel → i ≤ j → p j = true →
      p (bsearchAux p fuel i j) = true := by
  intro fuel
  induction fuel with
  | zero =>
    intro i j hf hij hpj
    have : i = j := by omega
    simpa [bsearchAux, this] using hpj
  | succ fuel ih =>
    intro i j hf hij hpj
    unfold bsearchAux
    split
    · next hlt =>
      have hw := bstep_width (p := p) hlt
      rcases hm : p ((i + j) / 2) with _ | _
      · have ht : bstep p i j = ((i + j) / 2 + 1, j) := by simp [bstep, hm]
        rw [ht]
        exact ih _ _ (by rw [ht] at hw; omega) (by dsimp only; omega) hpj
      · have ht : bstep p i j = (i, (i + j) / 2) := by simp [bstep, hm]
        rw [ht]
        exact ih _ _ (by rw [ht] at hw; omega) (by dsimp only; omega) hm
    · next hge =>
      have : i = j := by omega
      simpa [this] using hpj

theorem bsearchAux_pred_false (p : ℕ → Bool) :
    ∀ fuel i j, bsearchAux p fuel i j = i ∨ p (bsearchAux p fuel i j - 1) = false := by
  intro fuel
  induction fuel with
  | zero => intro i j; left; rfl
  | succ fuel ih =>
    intro i j
    unfold bsearchAux
    split
    · next hlt =>
      rcases hm : p ((i + j) / 2) with _ | _
      · have ht : bstep p i j = ((i + j) / 2 + 1, j) := by simp [bstep, hm]
        rw [ht]
        rcases ih ((i + j) / 2 + 1) j with h | h
        · right; rw [h]; simpa using hm
        · right; exact h
      · have ht : bstep p i j = (i, (i + j) / 2) := by simp [bstep, hm]
        rw [ht]
        exact ih i ((i + j) / 2)
    · left; rfl

/-- Monotonicity of the search predicate `p k = Less(src, vertex k)` on the
range `[lo, hi]`: once true, it stays true at larger indices. -/
def MonoOn (p : ℕ → Bool) (lo hi : ℕ) : Prop :=
  ∀ k l, lo ≤ k → k ≤ l → l ≤ hi → p k = true → p l = true

theorem bsearchAux_min (p : ℕ → Bool) :
    ∀ fuel i j, j - i ≤ fuel → MonoOn p i j →
      ∀ k, i ≤ k → k < bsearchAux p fuel i j → p k = false := by
  intro fuel
  induction fuel with
  | zero =>
    intro i j _ _ k hk hk'
    simp only [bsearchAux] at hk'
    omega
  | succ fuel ih =>
    intro i j hf hmono k hk hk'
    rw [bsearchAux] at hk'
    by_cases hlt : i < j
    · rw [if_pos hlt] at hk'
      have hw := bstep_width (p := p) hlt
      rcases hm : p ((i + j) / 2) with _ | _
      · have ht : bstep p i j = ((i + j) / 2 + 1, j) := by simp [bstep, hm]
        rw [ht] at hk'
        by_cases hkm : (i + j) / 2 + 1 ≤ k
        · exact ih _ _ (by rw [ht] at hw; omega) (fun a b ha hab hb => hmono a b (by omega) hab (by omega)) k hkm hk'
        · -- k ≤ (i+j)/2 : if p k were true, monotonicity would force p ((i+j)/2) = true
          rcases hpk : p k with _ | _
          · rfl
          · have : p ((i + j) / 2) = true :=
              hmono k ((i + j) / 2) hk (by omega) (by omega) hpk
            rw [hm] at this
            exact absurd this (by simp)
      · have ht : bstep p i j = (i, (i + j) / 2) := by simp [bstep, hm]
        rw [ht] at hk'
        exact ih _ _ (by rw [ht] at hw; omega) (fun a b ha hab hb => hmono a b ha hab (by omega)) k hk hk'
    · rw [if_neg hlt] at hk'
      omega

theorem bsearch_le_left (p : ℕ → Bool) (i j : ℕ) : i ≤ bsearch p i j :=
  bsearchAux_le_left p _ i j

theorem bsearch_le_right (p : ℕ → Bool) {i j : ℕ} (h : i ≤ j) : bsearch p i j ≤ j :=
  bsearchAux_le_right p _ i j h

theorem bsearch_pred_true (p : ℕ → Bool) {i j : ℕ} (hij : i ≤ j) (hpj : p j = true) :
    p (bsearch p i j) = true :=
  bsearchAux_pred_true p _ i j le_rfl hij hpj

theorem bsearch_pred_false (p : ℕ → Bool) (i j : ℕ) :
    bsearch p i j = i ∨ p (bsearch p i j - 1) = false :=
  bsearchAux_pred_false p _ i j

theorem bsearch_min (p : ℕ → Bool) {i j : ℕ} (hmono : MonoOn p i j) :
    ∀ k, i ≤ k → k < bsearch p i j → p k = false :=
  bsearchAux_min p _ i j le_rfl hmono

/-! The simplex state (`type state` in `simplex.go`).  `Fn` is the `Interface`
value (its `Less` method), `N` the dimension, and `pts` the slot view of the
flat buffer `X`: `pts i` is `Point(i) = X[i*n:(i+1)*n]`.  Slots `0..N` hold the
simplex vertices, slot `N+1` the centroid scratch, slots `N+2` and `N+3` the
trial-point scratch. -/
structure SimState (α : Type) where
  Fn : List α → List α → Bool
  N : ℕ
  pts : ℕ → List α

/-- Method `state.Less(i, j)` (`simplex.go:60-64`). -/
def SimState.Less (s : SimState α) (i j : ℕ) : Bool :=
  s.Fn (s.pts i) (s.pts j)

/-- The four constants of the Lagarias–Reeds–Wright–Wright variant
(`simplex.go:28-33`): reflection ρ = 1. -/
def ρ [Field α] : α := 1

/-- Expansion parameter χ = 2. -/
def χ [Field α] : α := 2

/-- Contraction parameter γ = 0.5. -/
def γ [Field α] : α := 1 / 2

/-- Shrinkage parameter σ = 0.5. -/
def σ [Field α] : α := 1 / 2

/-- Method `state.Insert(src, i, j)` (`simplex.go:89-105`): binary search over
`[i, j)` with predicate `p h = Less(src, h)`, then
`copy(s.X[(i+1)*n:(n+1)*n], s.X[i*n:n*n])` — an overlap-safe slot-aligned copy
shifting vertices `[r, n)` one slot to the right (discarding vertex `n`) —
and `copy(s.Point(i), s.Point(src))` writing `src` into the freed slot `r`.
`shifted` is the buffer after the first copy; the final write reads
`Point(src)` from that buffer, exactly as the Go code does. -/
def SimState.Insert (s : SimState α) (src i j : ℕ) : SimState α :=
  let r := bsearch (fun h => s.Fn (s.pts src) (s.pts h)) i j
  let shifted : ℕ → List α := fun k =>
    if k ≤ s.N then (if k ≤ r then s.pts k else s.pts (k - 1)) else s.pts k
  { s with pts := fun k => if k = r then shifted src else shifted k }

/-- Method `state.Centroid()` (`simplex.go:108-123`): zero the scratch slot
`N+1`, accumulate vertices `0..N-1` coordinate-wise, divide by `N`. -/
def SimState.Centroid [Field α] (s : SimState α) : SimState α :=
  let acc := (List.range s.N).foldl
    (fun acc k => List.zipWith (· + ·) acc (s.pts k)) (List.replicate s.N (0 : α))
  let cent := acc.map (· / (s.N : α))
  { s with pts := fun k => if k = s.N + 1 then cent else s.pts k }

/-- Method `state.Shift(a, b, c, λ)` (`simplex.go:126-134`):
`p_a[i] = (1-λ)*p_b[i] + λ*p_c[i]`.  Each index is read before it is written,
so the value-level `zipWith` is faithful even at the aliased call site
`Shift(n+2, n+1, n+2, γ)` where `a = c`. -/
def SimState.Shift [Field α] (s : SimState α) (a b c : ℕ) (l : α) : SimState α :=
  let pa := List.zipWith (fun x y => (1 - l) * x + l * y) (s.pts b) (s.pts c)
  { s with pts := fun k => if k = a then pa else s.pts k }

/-- Method `state.Shrink()` (`simplex.go:137-146`): pull every vertex `1..N`
toward vertex `0`, `pt[i] = (1-σ)*best[i] + σ*pt[i]`. -/
def SimState.Shrink [Field α] (s : SimState α) : SimState α :=
  { s with pts := fun k =>
      if 1 ≤ k ∧ k ≤ s.N then
        List.zipWith (fun x y => (1 - σ) * x + σ * y) (s.pts 0) (s.pts k)
      else s.pts k }

/-- The live vertices `0..N` in slot order, as a list. -/
def SimState.verts (s : SimState α) : List (List α) :=
  (List.range (s.N + 1)).map s.pts

/-- The result promised by the Go standard-library call `sort.Sort(s)` for the
`Len() = N+1` live vertices: some permutation of them that is ascending with
respect to `Less`.  The concrete algorithm used by `sort.Sort` is not part of
this repository; it is modelled by insertion sort, which realises exactly the
documented contract (a sorted permutation). -/
def SimState.sortedVerts (s : SimState α) : List (List α) :=
  @List.insertionSort _ (fun a b => s.Fn b a = false)
    (fun a b => instDecidableEqBool (s.Fn b a) false) s.verts

/-- Model of the Go standard-library call `sort.Sort(s)` (used in
`simplex.go:84` and `simplex.go:194`).  (`sort.Sort` also clobbers the scratch
slot `N+1` through `state.Swap`; every later read of that slot in the source
follows a full rewrite by `Centroid`, so the clobbered value is unobservable
and slot `N+1` is left unchanged here.) -/
def SimState.sortVerts (s : SimState α) : SimState α :=
  { s with pts := fun k => if k ≤ s.N then s.sortedVerts.getD k [] else s.pts k }

/-- The vertex-building loop of `state.Init(x, ε)` (`simplex.go:76-83`), before
the sort: for `k = 0..N`, `copy(Point(k), x)`, and for `k < N` additionally
`point[k] += ε`.  (A `set` past the end of the list is a no-op, where the Go
code would panic on an index out of range; the loop only touches index
`k < N = len(Point(k))`, so the two agree on all states with well-formed slot
lengths.) -/
def SimState.InitPts (s : SimState α) [Field α] (x : List α) (ε : α) : ℕ → List α :=
  fun k =>
    if k ≤ s.N then
      let point := goCopy (s.pts k) x
      if k < s.N then point.set k (point.getD k 0 + ε) else point
    else s.pts k

/-- Method `state.Init(x, ε)` (`simplex.go:76-85`): build the `N+1` vertices,
then `sort.Sort(s)`. -/
def SimState.Init [Field α] (s : SimState α) (x : List α) (ε : α) : SimState α :=
  SimState.sortVerts { s with pts := s.InitPts x ε }

/-- One iteration of the `Minimize` loop body (`simplex.go:162-200`).  Returns
the state after the iteration, the new `shrinkCount`, and whether the
`shrinkCount > 10` break fires at the end of this iteration. -/
def iterate [Field α] (s : SimState α) (shrinkCount : ℕ) : SimState α × ℕ × Bool :=
  let n := s.N
  let s1 := s.Centroid
  let s2 := s1.Shift (n + 2) (n + 1) n (-ρ)
  let winner := s2.Less (n + 2) 0
  if (!winner && s2.Less (n + 2) (n - 1)) = true then
    (s2.Insert (n + 2) 1 (n - 1), shrinkCount, false)
  else if winner = true then
    let s3 := s2.Shift (n + 3) (n + 1) (n + 2) χ
    if s3.Less (n + 3) (n + 2) = true then (s3.Insert (n + 3) 0 0, 0, false)
    else (s3.Insert (n + 2) 0 0, shrinkCount, false)
  else
    let s4 := if s2.Less (n + 2) n = true then s2.Shift (n + 2) (n + 1) (n + 2) γ
              else s2.Shift (n + 2) (n + 1) n γ
    if s4.Less (n + 2) n = true then (s4.Insert (n + 2) 0 n, shrinkCount, false)
    else
      let s5 := s4.Shrink.sortVerts
      (s5, shrinkCount + 1, decide (10 < shrinkCount + 1))

/-- The iteration loop `for step := 0; step < 10000; step++` of `Minimize`
(`simplex.go:162-200`), with the fuel playing the role of the remaining steps.
Returns the final state and the number of iterations that were executed. -/
def loop [Field α] : ℕ → SimState α → ℕ → SimState α × ℕ
  | 0, s, _ => (s, 0)
  | fuel + 1, s, sc =>
    let t := iterate s sc
    if t.2.2 = true then (t.1, 1)
    else
      let u := loop fuel t.1 t.2.1
      (u.1, u.2 + 1)

/-- Function `Minimize(fn, x, ε)` (`simplex.go:149-205`): allocate the
zero-initialised buffer of `n+4` slots (`make([]float64, (n+4)*n)`), run
`Init`, run the loop with `shrinkCount = 0`, then copy vertex `0` into a
freshly allocated result vector (`res := make([]float64, n); copy(res, s.Point(0))`). -/
def Minimize [Field α] (fn : List α → List α → Bool) (x : List α) (ε : α) : List α :=
  let n := x.length
  let s0 : SimState α := ⟨fn, n, fun _ => List.replicate n (0 : α)⟩
  let s1 := s0.Init x ε
  let t := loop 10000 s1 0
  goCopy (List.replicate n (0 : α)) (t.1.pts 0)

/-! Order-theoretic properties of the caller-supplied predicate.  The spec's
data model requires `Less` to be a strict weak ordering; asymmetry and
negative transitivity are the two consequences the proofs use. -/

/-- Asymmetry of the ordering predicate: `Less(a, b)` implies `¬ Less(b, a)`. -/
def Asymm (fn : List α → List α → Bool) : Prop :=
  ∀ a b, fn a b = true → fn b a = false

/-- Negative transitivity of the ordering predicate:
`¬ Less(a, b)` and `¬ Less(b, c)` imply `¬ Less(a, c)`. -/
def NegTrans (fn : List α → List α → Bool) : Prop :=
  ∀ a b c, fn a b = false → fn b c = false → fn a c = false

/-- The live vertices `0..N` are sorted ascending by the predicate, in the
sense guaranteed by `sort.Sort`: no adjacent inversion. -/
def SortedS (s : SimState α) : Prop :=
  ∀ k, k < s.N → s.Fn (s.pts (k + 1)) (s.pts k) = false

theorem SortedS_of_eq_on {s t : SimState α} (hFn : t.Fn = s.Fn) (hN : t.N = s.N)
    (hpts : ∀ k, k ≤ s.N → t.pts k = s.pts k) (hs : SortedS s) : SortedS t := by
  intro k hk
  rw [hN] at hk
  rw [hFn, hpts k (by omega), hpts (k + 1) (by omega)]
  exact hs k hk

/-- Pointwise description of the buffer after `state.Insert`, for a `src` slot
outside the live vertices (the only way `Insert` is ever called): vertices
below the insertion index are unchanged, the insertion index receives the
`src` point, vertices above it are shifted one slot up (vertex `N` is
discarded), and slots beyond `N` are untouched. -/
theorem Insert_pts {s : SimState α} {src i j : ℕ} (hsrc : s.N < src) (k : ℕ) :
    (s.Insert src i j).pts k =
      (if k = bsearch (fun h => s.Fn (s.pts src) (s.pts h)) i j then s.pts src
       else if k ≤ s.N then
         (if k ≤ bsearch (fun h => s.Fn (s.pts src) (s.pts h)) i j then s.pts k
          else s.pts (k - 1))
       else s.pts k) := by
  unfold SimState.Insert
  dsimp only
  by_cases hk : k = bsearch (fun h => s.Fn (s.pts src) (s.pts h)) i j
  · rw [if_pos hk, if_pos hk, if_neg (by omega : ¬ src ≤ s.N)]
  · rw [if_neg hk, if_neg hk]

theorem Insert_Fn (s : SimState α) (src i j : ℕ) : (s.Insert src i j).Fn = s.Fn := rfl

theorem Insert_N (s : SimState α) (src i j : ℕ) : (s.Insert src i j).N = s.N := rfl

/-- Core correctness of the order-preserving insertion (`state.Insert`): if
the live vertices are sorted and the bracket precondition holds
(`Less(src, i-1)` false — vacuous at `i = 0` — and `Less(src, j)` true),
the vertices `0..N` are sorted again after the insertion. -/
theorem Insert_sorted {s : SimState α} (hA : Asymm s.Fn) (hs : SortedS s)
    {src i j : ℕ} (hsrc : s.N < src) (hij : i ≤ j) (hj : j ≤ s.N)
    (hbr : i = 0 ∨ s.Fn (s.pts src) (s.pts (i - 1)) = false)
    (hpj : s.Fn (s.pts src) (s.pts j) = true) :
    SortedS (s.Insert src i j) := by
  intro k hk
  rw [Insert_N] at hk
  rw [Insert_Fn, Insert_pts hsrc, Insert_pts hsrc]
  set p : ℕ → Bool := fun h => s.Fn (s.pts src) (s.pts h) with hp
  set r := bsearch p i j with hr
  have hri : i ≤ r := bsearch_le_left p i j
  have hrj : r ≤ j := bsearch_le_right p hij
  have hpr : p r = true := bsearch_pred_true p hij hpj
  have hlow : r = i ∨ p (r - 1) = false := bsearch_pred_false p i j
  rcases Nat.lt_trichotomy (k + 1) r with h1 | h1 | h1
  · -- both slots below the insertion index: unchanged
    rw [if_neg (by omega), if_pos (by omega), if_pos (by omega),
      if_neg (by omega), if_pos (by omega), if_pos (by omega)]
    exact hs k hk
  · -- slot k+1 = r holds src; slot k = r-1 is unchanged
    rw [if_pos h1, if_neg (by omega), if_pos (by omega), if_pos (by omega)]
    rcases hlow with hcase | hcase
    · rcases hbr with hi0 | hbrf
      · omega
      · have : k = i - 1 := by omega
        rw [this]
        exact hbrf
    · have : k = r - 1 := by omega
      rw [this]
      exact hcase
  · rcases Nat.lt_or_ge r k with h2 | h2
    · -- both slots above the insertion index: shifted copies of old neighbours
      rw [if_neg (by omega), if_pos (by omega), if_neg (by omega),
        if_neg (by omega), if_pos (by omega), if_neg (by omega)]
      have := hs (k - 1) (by omega)
      have hk1 : k - 1 + 1 = k := by omega
      rwa [hk1] at this
    · -- slot k = r holds src; slot k+1 holds the old vertex r
      have hkr : k = r := by omega
      rw [if_neg (by omega), if_pos (by omega), if_neg (by omega), if_pos hkr]
      have : k + 1 - 1 = r := by omega
      rw [this]
      exact hA _ _ hpr

theorem sortedVerts_length (s : SimState α) : s.sortedVerts.length = s.N + 1 := by
  have := (List.perm_insertionSort (fun a b => s.Fn b a = false) s.verts).length_eq
  simpa [SimState.sortedVerts, SimState.verts] using this

theorem sortVerts_Fn (s : SimState α) : s.sortVerts.Fn = s.Fn := rfl

theorem sortVerts_N (s : SimState α) : s.sortVerts.N = s.N := rfl

theorem sortVerts_pts_le {s : SimState α} {k : ℕ} (hk : k ≤ s.N) :
    s.sortVerts.pts k = s.sortedVerts.getD k [] := by
  unfold SimState.sortVerts
  dsimp only
  rw [if_pos hk]

theorem sortVerts_sorted {s : SimState α} (hA : Asymm s.Fn) (hN : NegTrans s.Fn) :
    SortedS s.sortVerts := by
  haveI htotal : IsTotal (List α) (fun a b => s.Fn b a = false) := by
    constructor
    intro a b
    rcases hab : s.Fn b a with _ | _
    · exact Or.inl rfl
    · exact Or.inr (hA b a hab)
  haveI htrans : IsTrans (List α) (fun a b => s.Fn b a = false) := by
    constructor
    intro a b c hab hbc
    exact hN c b a hbc hab
  have hsorted : List.Sorted (fun a b => s.Fn b a = false) s.sortedVerts :=
    List.sorted_insertionSort _ s.verts
  intro k hk
  rw [sortVerts_N] at hk
  have hk1 : k < s.sortedVerts.length := by rw [sortedVerts_length]; omega
  have hk2 : k + 1 < s.sortedVerts.length := by rw [sortedVerts_length]; omega
  have := List.pairwise_iff_get.mp hsorted ⟨k, hk1⟩ ⟨k + 1, hk2⟩ (by simp)
  show s.Fn (s.sortVerts.pts (k + 1)) (s.sortVerts.pts k) = false
  rw [sortVerts_pts_le (by omega), sortVerts_pts_le (by omega),
    List.getD_eq_getElem _ _ hk1, List.getD_eq_getElem _ _ hk2]
  simpa [List.get_eq_getElem] using this

theorem Centroid_Fn [Field α] (s : SimState α) : s.Centroid.Fn = s.Fn := rfl

theorem Centroid_N [Field α] (s : SimState α) : s.Centroid.N = s.N := rfl

theorem Centroid_pts_ne [Field α] (s : SimState α) {k : ℕ} (hk : k ≠ s.N + 1) :
    s.Centroid.pts k = s.pts k := by
  unfold SimState.Centroid
  dsimp only
  rw [if_neg hk]

theorem Shift_Fn [Field α] (s : SimState α) (a b c : ℕ) (l : α) :
    (s.Shift a b c l).Fn = s.Fn := rfl

theorem Shift_N [Field α] (s : SimState α) (a b c : ℕ) (l : α) :
    (s.Shift a b c l).N = s.N := rfl

theorem Shift_pts_ne [Field α] (s : SimState α) {a : ℕ} (b c : ℕ) (l : α) {k : ℕ}
    (hk : k ≠ a) : (s.Shift a b c l).pts k = s.pts k := by
  unfold SimState.Shift
  dsimp only
  rw [if_neg hk]

theorem Shift_pts_self [Field α] (s : SimState α) (a b c : ℕ) (l : α) :
    (s.Shift a b c l).pts a =
      List.zipWith (fun x y => (1 - l) * x + l * y) (s.pts b) (s.pts c) := by
  unfold SimState.Shift
  dsimp only
  rw [if_pos rfl]

theorem Shrink_Fn [Field α] (s : SimState α) : s.Shrink.Fn = s.Fn := rfl

theorem Shrink_N [Field α] (s : SimState α) : s.Shrink.N = s.N := rfl

/-- Branch equation for `iterate`: when the reflected point ranks strictly
between the best and the second-worst vertex (`simplex.go:167-170`), the
iteration inserts it by binary search over `(1, n-1)` and leaves the shrink
counter unchanged. -/
theorem iterate_reflect_eq [Field α] (s : SimState α) (sc : ℕ)
    (hw : ((s.Centroid).Shift (s.N + 2) (s.N + 1) s.N (-ρ)).Less (s.N + 2) 0 = false)
    (hl : ((s.Centroid).Shift (s.N + 2) (s.N + 1) s.N (-ρ)).Less (s.N + 2) (s.N - 1) = true) :
    iterate s sc =
      (((s.Centroid).Shift (s.N + 2) (s.N + 1) s.N (-ρ)).Insert (s.N + 2) 1 (s.N - 1),
        sc, false) := by
  unfold iterate
  dsimp only
  rw [hw, hl]
  rw [if_pos (by simp)]

/-- Branch equation for `iterate`: when the reflected point ranks better than
the current best vertex (`simplex.go:172-181`), the iteration attempts the
expansion and inserts the better of the two candidates at position 0; the
shrink counter is reset only when the expanded point wins. -/
theorem iterate_winner_eq [Field α] (s : SimState α) (sc : ℕ)
    (hw : ((s.Centroid).Shift (s.N + 2) (s.N + 1) s.N (-ρ)).Less (s.N + 2) 0 = true) :
    iterate s sc =
      (let s2 := (s.Centroid).Shift (s.N + 2) (s.N + 1) s.N (-ρ)
       let s3 := s2.Shift (s.N + 3) (s.N + 1) (s.N + 2) χ
       if s3.Less (s.N + 3) (s.N + 2) = true then (s3.Insert (s.N + 3) 0 0, 0, false)
       else (s3.Insert (s.N + 2) 0 0, sc, false)) := by
  unfold iterate
  dsimp only
  rw [hw]
  rw [if_neg (by simp), if_pos rfl]

/-- Branch equation for `iterate`: when the reflected point beats neither the
best vertex nor the second-worst (`simplex.go:183-199`), the iteration
contracts (outside or inside), inserts the contracted point if it beats the
worst vertex, and otherwise shrinks, re-sorts and bumps the shrink counter. -/
theorem iterate_nowin_eq [Field α] (s : SimState α) (sc : ℕ)
    (hw : ((s.Centroid).Shift (s.N + 2) (s.N + 1) s.N (-ρ)).Less (s.N + 2) 0 = false)
    (hl : ((s.Centroid).Shift (s.N + 2) (s.N + 1) s.N (-ρ)).Less (s.N + 2) (s.N - 1) = false) :
    iterate s sc =
      (let s2 := (s.Centroid).Shift (s.N + 2) (s.N + 1) s.N (-ρ)
       let s4 := if s2.Less (s.N + 2) s.N = true then s2.Shift (s.N + 2) (s.N + 1) (s.N + 2) γ
                 else s2.Shift (s.N + 2) (s.N + 1) s.N γ
       if s4.Less (s.N + 2) s.N = true then (s4.Insert (s.N + 2) 0 s.N, sc, false)
       else (s4.Shrink.sortVerts, sc + 1, decide (10 < sc + 1))) := by
  unfold iterate
  dsimp only
  rw [hw, hl]
  rw [if_neg (by simp), if_neg (by simp)]

/-- Sortedness of the live vertices is preserved by one full iteration of the
`Minimize` loop: every accepting branch inserts through `Insert` with its
bracket precondition established by the branch guards, and the shrink branch
re-sorts from scratch. -/
theorem iterate_sorted [Field α] {s : SimState α} (hA : Asymm s.Fn)
    (hN : NegTrans s.Fn) (hs : SortedS s) (sc : ℕ) :
    SortedS (iterate s sc).1 := by
  have hN2e : ((s.Centroid).Shift (s.N + 2) (s.N + 1) s.N (-ρ)).N = s.N := rfl
  have hs2 : SortedS ((s.Centroid).Shift (s.N + 2) (s.N + 1) s.N (-ρ)) := by
    refine SortedS_of_eq_on (s := s) rfl rfl (fun k hk => ?_) hs
    rw [Shift_pts_ne _ _ _ _ (by omega), Centroid_pts_ne _ (by omega)]
  set s2 := (s.Centroid).Shift (s.N + 2) (s.N + 1) s.N (-ρ) with hs2def
  have hA2 : Asymm s2.Fn := hA
  have hNt2 : NegTrans s2.Fn := hN
  rcases hw : s2.Less (s.N + 2) 0 with _ | _
  · rcases hl : s2.Less (s.N + 2) (s.N - 1) with _ | _
    · -- no winner, reflection not accepted: contraction or shrink
      rw [iterate_nowin_eq s sc hw hl]
      dsimp only
      set s4 := (if s2.Less (s.N + 2) s.N = true then s2.Shift (s.N + 2) (s.N + 1) (s.N + 2) γ
                 else s2.Shift (s.N + 2) (s.N + 1) s.N γ) with hs4def
      have hN4e : s4.N = s.N := by rw [hs4def]; split <;> rfl
      have hFn4 : s4.Fn = s2.Fn := by rw [hs4def]; split <;> rfl
      have hpts4 : ∀ k, k ≤ s2.N → s4.pts k = s2.pts k := by
        intro k hk
        rw [hN2e] at hk
        rw [hs4def]
        split <;> exact Shift_pts_ne _ _ _ _ (by omega)
      have hs4 : SortedS s4 :=
        SortedS_of_eq_on (s := s2) hFn4 (by rw [hN4e, hN2e]) hpts4 hs2
      have hA4 : Asymm s4.Fn := by rw [hFn4]; exact hA2
      rcases hc : s4.Less (s.N + 2) s.N with _ | _
      · -- contraction failed: shrink and re-sort
        rw [if_neg (by simp [hc])]
        dsimp only
        have hFnS : (s4.Shrink).Fn = s4.Fn := rfl
        refine sortVerts_sorted ?_ ?_
        · rw [hFnS, hFn4]; exact hA2
        · rw [hFnS, hFn4]; exact hNt2
      · -- contraction accepted: insert at position in [0, N]
        rw [if_pos rfl]
        dsimp only
        exact Insert_sorted (s := s4) hA4 hs4 (by omega) (by omega) (by omega)
          (Or.inl rfl) hc
    · -- reflected point accepted strictly between best and second-worst
      rw [iterate_reflect_eq s sc hw hl]
      dsimp only
      rcases Nat.lt_or_ge s.N 2 with hn1 | hn2
      · -- dimension 0 or 1: the guard contradicts itself, branch unreachable
        exfalso
        have hz : s.N - 1 = 0 := by omega
        rw [hz] at hl
        rw [hl] at hw
        simp at hw
      · exact Insert_sorted (s := s2) hA2 hs2 (by omega) (by omega) (by omega)
          (Or.inr hw) hl
  · -- reflected point better than the current best: expansion attempt
    rw [iterate_winner_eq s sc hw]
    dsimp only
    set s3 := s2.Shift (s.N + 3) (s.N + 1) (s.N + 2) χ with hs3def
    have hN3e : s3.N = s.N := rfl
    have hs3 : SortedS s3 := by
      refine SortedS_of_eq_on (s := s2) rfl (by rw [hN3e, hN2e]) (fun k hk => ?_) hs2
      rw [hs3def]
      exact Shift_pts_ne _ _ _ _ (by omega)
    have e2 : s3.pts (s.N + 2) = s2.pts (s.N + 2) := by
      rw [hs3def]; exact Shift_pts_ne _ _ _ _ (by omega)
    have e0 : s3.pts 0 = s2.pts 0 := by
      rw [hs3def]; exact Shift_pts_ne _ _ _ _ (by omega)
    rcases hB : s3.Less (s.N + 3) (s.N + 2) with _ | _
    · -- expanded point not better: insert A at position 0
      rw [if_neg (by simp [hB])]
      dsimp only
      refine Insert_sorted (s := s3) hA2 hs3 ?_ le_rfl ?_ (Or.inl rfl) ?_
      · omega
      · omega
      · show s3.Fn (s3.pts (s.N + 2)) (s3.pts 0) = true
        rw [e2, e0]
        exact hw
    · -- expanded point B better than A: insert B at position 0
      rw [if_pos rfl]
      dsimp only
      refine Insert_sorted (s := s3) hA2 hs3 ?_ le_rfl ?_ (Or.inl rfl) ?_
      · omega
      · omega
      · -- Less(B, best) follows from Less(B, A) and Less(A, best)
        show s3.Fn (s3.pts (s.N + 3)) (s3.pts 0) = true
        rcases hBv : s3.Fn (s3.pts (s.N + 3)) (s3.pts 0) with _ | _
        · exfalso
          have hAv : s2.Fn (s2.pts (s.N + 2)) (s2.pts 0) = true := hw
          have h1 : s3.Fn (s3.pts 0) (s3.pts (s.N + 2)) = false := by
            rw [e2, e0]; exact hA2 _ _ hAv
          have h2 : s3.Fn (s3.pts (s.N + 3)) (s3.pts (s.N + 2)) = false :=
            hNt2 _ _ _ hBv h1
          have hBA : s3.Fn (s3.pts (s.N + 3)) (s3.pts (s.N + 2)) = true := hB
          rw [hBA] at h2
          simp at h2
        · rfl

/-! Length invariant: every slot of the buffer holds a point of dimension `N`,
exactly as in the Go buffer of `(n+4)*n` floats. -/

/-- All slots hold points of dimension `N`. -/
def WFS (s : SimState α) : Prop :=
  ∀ k, (s.pts k).length = s.N

theorem getD_zipWith {f : α → α → α} {a b : List α} {i : ℕ} (d : α)
    (ha : i < a.length) (hb : i < b.length) :
    (List.zipWith f a b).getD i d = f (a.getD i d) (b.getD i d) := by
  have hz : i < (List.zipWith f a b).length := by
    rw [List.length_zipWith]; omega
  rw [List.getD_eq_getElem _ _ hz, List.getD_eq_getElem _ _ ha,
    List.getD_eq_getElem _ _ hb, List.getElem_zipWith]

theorem foldl_vadd_length [Field α] {n : ℕ} :
    ∀ (L : List (List α)) (acc : List α), acc.length = n → (∀ l ∈ L, l.length = n) →
      (L.foldl (fun a b => List.zipWith (· + ·) a b) acc).length = n := by
  intro L
  induction L with
  | nil => intro acc h _; simpa using h
  | cons l L ih =>
    intro acc h hall
    simp only [List.foldl_cons]
    have hl : l.length = n := hall l (by simp)
    exact ih _ (by rw [List.length_zipWith]; omega) (fun x hx => hall x (by simp [hx]))

theorem foldl_vadd_getD [Field α] {n : ℕ} :
    ∀ (L : List (List α)) (acc : List α), acc.length = n → (∀ l ∈ L, l.length = n) →
      ∀ i, i < n →
        (L.foldl (fun a b => List.zipWith (· + ·) a b) acc).getD i 0 =
          acc.getD i 0 + (L.map (fun l => l.getD i (0 : α))).sum := by
  intro L
  induction L with
  | nil => intro acc _ _ i _; simp
  | cons l L ih =>
    intro acc hacc hall i hi
    simp only [List.foldl_cons, List.map_cons, List.sum_cons]
    have hl : l.length = n := hall l (by simp)
    have h1 : (List.zipWith (· + ·) acc l).length = n := by
      rw [List.length_zipWith]; omega
    rw [ih _ h1 (fun x hx => hall x (by simp [hx])) i hi,
      getD_zipWith (a := acc) (b := l) 0 (by omega) (by omega), add_assoc]

/-- The centroid slot after `Centroid()` holds, coordinate-wise, the sum of
vertices `0..N-1` divided by `N`. -/
theorem Centroid_spec [Field α] (s : SimState α)
    (hwf : ∀ k, k < s.N → (s.pts k).length = s.N) :
    ((s.Centroid).pts (s.N + 1)).length = s.N ∧
    ∀ i, i < s.N →
      ((s.Centroid).pts (s.N + 1)).getD i 0 =
        ((List.range s.N).map (fun k => (s.pts k).getD i (0 : α))).sum / (s.N : α) := by
  have hpts : (s.Centroid).pts (s.N + 1) =
      ((List.range s.N).foldl (fun acc k => List.zipWith (· + ·) acc (s.pts k))
        (List.replicate s.N (0 : α))).map (· / (s.N : α)) := by
    unfold SimState.Centroid
    dsimp only
    rw [if_pos rfl]
  have hfold : (List.range s.N).foldl (fun acc k => List.zipWith (· + ·) acc (s.pts k))
      (List.replicate s.N (0 : α)) =
      ((List.range s.N).map s.pts).foldl (fun a b => List.zipWith (· + ·) a b)
        (List.replicate s.N (0 : α)) := by
    rw [List.foldl_map]
  have hmemlen : ∀ l ∈ (List.range s.N).map s.pts, l.length = s.N := by
    intro l hl
    rcases List.mem_map.mp hl with ⟨k, hk, rfl⟩
    exact hwf k (List.mem_range.mp hk)
  have hlen : (((List.range s.N).map s.pts).foldl (fun a b => List.zipWith (· + ·) a b)
      (List.replicate s.N (0 : α))).length = s.N :=
    foldl_vadd_length _ _ (by simp) hmemlen
  constructor
  · rw [hpts, hfold, List.length_map]
    exact hlen
  · intro i hi
    rw [hpts, hfold]
    have hgd := foldl_vadd_getD (n := s.N) ((List.range s.N).map s.pts)
      (List.replicate s.N (0 : α)) (by simp) hmemlen i hi
    have hmem : i < (((List.range s.N).map s.pts).foldl
        (fun a b => List.zipWith (· + ·) a b) (List.replicate s.N (0 : α))).length := by
      omega
    rw [List.getD_eq_getElem _ _ (by rw [List.length_map]; omega),
      List.getElem_map]
    rw [← List.getD_eq_getElem _ (0 : α) hmem, hgd]
    simp [List.map_map, Function.comp_def]

theorem WFS_Centroid [Field α] {s : SimState α} (hwf : WFS s) : WFS s.Centroid := by
  intro k
  by_cases hk : k = s.N + 1
  · subst hk
    exact (Centroid_spec s (fun k _ => hwf k)).1
  · rw [Centroid_pts_ne _ hk]
    exact hwf k

theorem WFS_Shift [Field α] {s : SimState α} (hwf : WFS s) (a b c : ℕ) (l : α) :
    WFS (s.Shift a b c l) := by
  intro k
  by_cases hk : k = a
  · subst hk
    rw [Shift_pts_self]
    show (List.zipWith _ _ _).length = s.N
    rw [List.length_zipWith, hwf b, hwf c]
    omega
  · rw [Shift_pts_ne _ _ _ _ hk]
    exact hwf k

theorem WFS_Shrink [Field α] {s : SimState α} (hwf : WFS s) : WFS s.Shrink := by
  intro k
  unfold SimState.Shrink
  dsimp only
  split
  · rw [List.length_zipWith, hwf 0, hwf k]
    omega
  · exact hwf k

theorem WFS_Insert {s : SimState α} (hwf : WFS s) (src i j : ℕ) :
    WFS (s.Insert src i j) := by
  intro k
  unfold SimState.Insert
  dsimp only
  split
  · split
    · split
      · exact hwf src
      · exact hwf (src - 1)
    · exact hwf src
  · split
    · split
      · exact hwf k
      · exact hwf (k - 1)
    · exact hwf k

theorem sortedVerts_mem_length {s : SimState α} (hwf : WFS s) {l : List α}
    (hl : l ∈ s.sortedVerts) : l.length = s.N := by
  have : l ∈ s.verts := by
    have hperm := List.perm_insertionSort (fun a b => s.Fn b a = false) s.verts
    exact hperm.mem_iff.mp hl
  rcases List.mem_map.mp this with ⟨k, _, rfl⟩
  exact hwf k

theorem WFS_sortVerts {s : SimState α} (hwf : WFS s) : WFS s.sortVerts := by
  intro k
  unfold SimState.sortVerts
  dsimp only
  split
  · next hk =>
    have hlt : k < s.sortedVerts.length := by rw [sortedVerts_length]; omega
    rw [List.getD_eq_getElem _ _ hlt]
    exact sortedVerts_mem_length hwf (List.getElem_mem hlt)
  · exact hwf k

theorem WFS_InitPts [Field α] {s : SimState α} (hwf : WFS s) (x : List α) (ε : α) :
    WFS { s with pts := s.InitPts x ε } := by
  intro k
  show (s.InitPts x ε k).length = s.N
  unfold SimState.InitPts
  dsimp only
  split
  · split
    · rw [List.length_set, goCopy_length]
      exact hwf k
    · rw [goCopy_length]
      exact hwf k
  · exact hwf k

theorem WFS_Init [Field α] {s : SimState α} (hwf : WFS s) (x : List α) (ε : α) :
    WFS (s.Init x ε) :=
  WFS_sortVerts (WFS_InitPts hwf x ε)

theorem WFS_iterate [Field α] {s : SimState α} (hwf : WFS s) (sc : ℕ) :
    WFS (iterate s sc).1 := by
  unfold iterate
  dsimp only
  have h2 : WFS ((s.Centroid).Shift (s.N + 2) (s.N + 1) s.N (-ρ)) :=
    WFS_Shift (WFS_Centroid hwf) _ _ _ _
  repeat' split
  all_goals first
    | exact WFS_Insert h2 _ _ _
    | exact WFS_Insert (WFS_Shift h2 _ _ _ _) _ _ _
    | exact WFS_sortVerts (WFS_Shrink (WFS_Shift h2 _ _ _ _))

theorem WFS_loop [Field α] :
    ∀ (fuel : ℕ) (s : SimState α) (sc : ℕ), WFS s → WFS (loop fuel s sc).1 := by
  intro fuel
  induction fuel with
  | zero => intro s sc h; exact h
  | succ fuel ih =>
    intro s sc h
    unfold loop
    dsimp only
    split
    · exact WFS_iterate h sc
    · exact ih _ _ (WFS_iterate h sc)

theorem iterate_N [Field α] (s : SimState α) (sc : ℕ) : (iterate s sc).1.N = s.N := by
  unfold iterate
  dsimp only
  repeat' split
  all_goals rfl

theorem loop_N [Field α] :
    ∀ (fuel : ℕ) (s : SimState α) (sc : ℕ), (loop fuel s sc).1.N = s.N := by
  intro fuel
  induction fuel with
  | zero => intro s sc; rfl
  | succ fuel ih =>
    intro s sc
    unfold loop
    dsimp only
    split
    · exact iterate_N s sc
    · rw [ih]
      exact iterate_N s sc

/-- The loop executes at most `fuel` iterations. -/
theorem loop_count_le [Field α] :
    ∀ (fuel : ℕ) (s : SimState α) (sc : ℕ), (loop fuel s sc).2 ≤ fuel := by
  intro fuel
  induction fuel with
  | zero => intro s sc; exact le_rfl
  | succ fuel ih =>
    intro s sc
    unfold loop
    dsimp only
    split
    · omega
    · have := ih (iterate s sc).1 (iterate s sc).2.1
      omega

/-- When an iteration raises the break flag, the loop stops at once. -/
theorem loop_break [Field α] (fuel : ℕ) (s : SimState α) (sc : ℕ)
    (h : (iterate s sc).2.2 = true) :
    loop (fuel + 1) s sc = ((iterate s sc).1, 1) := by
  unfold loop
  dsimp only
  rw [if_pos h]

/-- The break flag fires exactly when the iteration went through the shrink
branch (the only branch that increments the counter) and the incremented
counter exceeds 10. -/
theorem iterate_break_iff [Field α] (s : SimState α) (sc : ℕ) :
    (iterate s sc).2.2 = true ↔ ((iterate s sc).2.1 = sc + 1 ∧ 10 < (iterate s sc).2.1) := by
  unfold iterate
  dsimp only
  repeat' split
  all_goals simp

/-- The loop invariant of the binary search in `Insert` (`simplex.go:90`):
`Less(src, i-1)` is false (vacuously at `i = 0`) and `Less(src, j)` is true,
for `p h = Less(src, h)`. -/
def Bracket (p : ℕ → Bool) (i j : ℕ) : Prop :=
  (i = 0 ∨ p (i - 1) = false) ∧ p j = true

/-- One step of the binary search preserves the bracket invariant. -/
theorem bstep_bracket {p : ℕ → Bool} {i j : ℕ} (hbr : Bracket p i j) :
    Bracket p (bstep p i j).1 (bstep p i j).2 := by
  unfold bstep
  dsimp only
  rcases hm : p ((i + j) / 2) with _ | _
  · exact ⟨Or.inr (by simpa using hm), hbr.2⟩
  · exact ⟨hbr.1, hm⟩

/-- On a sorted index range, the search predicate `Less(src, ·)` is monotone:
once true it stays true upward (this is where the strict-weak-order shape of
the predicate enters). -/
theorem mono_of_sorted {s : SimState α} (hNt : NegTrans s.Fn) (src i j : ℕ)
    (hsort : ∀ k, i ≤ k → k < j → s.Fn (s.pts (k + 1)) (s.pts k) = false) :
    MonoOn (fun h => s.Fn (s.pts src) (s.pts h)) i j := by
  have key : ∀ d k, i ≤ k → k + d ≤ j → s.Fn (s.pts src) (s.pts k) = true →
      s.Fn (s.pts src) (s.pts (k + d)) = true := by
    intro d
    induction d with
    | zero => intro k _ _ h; simpa using h
    | succ d ih =>
      intro k hk hkd hpk
      have hp : s.Fn (s.pts src) (s.pts (k + d)) = true := ih k hk (by omega) hpk
      have hstep : s.Fn (s.pts (k + d + 1)) (s.pts (k + d)) = false :=
        hsort (k + d) (by omega) (by omega)
      rcases hnext : s.Fn (s.pts src) (s.pts (k + d + 1)) with _ | _
      · exfalso
        have := hNt _ _ _ hnext hstep
        rw [hp] at this
        simp at this
      · show s.Fn (s.pts src) (s.pts (k + (d + 1))) = true
        have : k + (d + 1) = k + d + 1 := by omega
        rw [this]
        exact hnext
  intro k l hk hkl hl hpk
  have := key (l - k) k hk (by omega) hpk
  have he : k + (l - k) = l := by omega
  rwa [he] at this

/-! Concrete instantiation infrastructure: a small computable field on `Fin 3`
so that the universally quantified theorems can be exercised on explicit
inputs by kernel evaluation, plus an explicit strict total order on points
(compare first coordinates). -/

instance : Field (Fin 3) := {
  (inferInstance : CommRing (Fin 3)) with
  inv := id
  div := fun a b => a * b
  div_eq_mul_inv := fun _ _ => rfl
  exists_pair_ne := ⟨0, 1, by decide⟩
  mul_inv_cancel := by decide
  inv_zero := by decide
  nnqsmul := _
  qsmul := _ }

/-- Ordering predicate for concrete instantiations: compare first
coordinates. -/
def fnW : List (Fin 3) → List (Fin 3) → Bool :=
  fun a b => decide (a.getD 0 0 < b.getD 0 0)

theorem fnW_asymm : Asymm fnW :=
  fun _ _ h => decide_eq_false (lt_asymm (of_decide_eq_true h))

theorem fnW_negtrans : NegTrans fnW :=
  fun _ _ _ h1 h2 => decide_eq_false
    (not_lt.mpr (le_trans (not_lt.mp (of_decide_eq_false h2))
      (not_lt.mp (of_decide_eq_false h1))))

/-- A concrete dimension-2 state: live vertices `[0,0] ≤ [1,1] ≤ [2,2]`,
trial scratch slot 4 holding `[0,1]`, which ranks after vertex 0 and before
vertex 1. -/
def csA : SimState (Fin 3) :=
  ⟨fnW, 2, fun k => [[0, 0], [1, 1], [2, 2], [0, 0], [0, 1], [0, 0]].getD k [0, 0]⟩

/-- A concrete dimension-1 state with vertices `[1] ≤ [2]`, on which the
reflected point `[0]` beats the best vertex while the expanded point `[2]`
does not beat the reflected one. -/
def csC4 : SimState (Fin 3) :=
  ⟨fnW, 1, fun k => [([1, 2].getD k 0 : Fin 3)]⟩

/-- A concrete dimension-1 state with a zeroed buffer, used to exercise
`Init`. -/
def csI : SimState (Fin 3) :=
  ⟨fnW, 1, fun _ => [0]⟩

/-- C1: for every state whose live vertices `0..n` are sorted ascending by the
predicate and every call `Insert(src, i, j)` satisfying its bracket
precondition (`predicate(src, vertex[i-1])` false and
`predicate(src, vertex[j])` true), after `Insert` the vertices `0..n` are
again sorted ascending by the predicate; moreover the same holds across every
full iteration of the loop, i.e. after every move type (reflect-accept,
expand, contract, shrink). -/
theorem insert_preserves_vertex_order {α : Type} [Field α] (s : SimState α)
    (hA : Asymm s.Fn) (hNt : NegTrans s.Fn) :
    (∀ src i j, s.N < src → i ≤ j → j ≤ s.N →
        (i = 0 ∨ s.Fn (s.pts src) (s.pts (i - 1)) = false) →
        s.Fn (s.pts src) (s.pts j) = true →
        SortedS s → SortedS (s.Insert src i j)) ∧
    (∀ sc : ℕ, SortedS s → SortedS (iterate s sc).1) :=
  ⟨fun _ _ _ hsrc hij hj hbr hpj hs => Insert_sorted hA hs hsrc hij hj hbr hpj,
   fun sc hs => iterate_sorted hA hNt hs sc⟩

theorem insert_preserves_vertex_order_witness :
    Asymm csA.Fn ∧ NegTrans csA.Fn ∧ SortedS csA ∧
    SortedS (csA.Insert 4 1 1) ∧ SortedS (iterate csA 0).1 :=
  ⟨fnW_asymm, fnW_negtrans, by unfold SortedS; decide,
   (insert_preserves_vertex_order csA fnW_asymm fnW_negtrans).1 4 1 1 (by decide)
     (by decide) (by decide) (Or.inr (by decide)) (by decide)
     (by unfold SortedS; decide),
   (insert_preserves_vertex_order csA fnW_asymm fnW_negtrans).2 0
     (by unfold SortedS; decide)⟩

/-- C2: for every call `Insert(src, i, j)` whose precondition holds
(bracket `¬Less(src, i-1)` and `Less(src, j)`, vertices `i..j` sorted), each
binary-search step preserves the bracket, the search lands inside `[i, j]` at
the smallest index of the searched range whose vertex ranks after `src`, and
the buffer afterwards is the old one with vertices `[index, n)` shifted one
slot right (vertex `n` discarded) and `src` copied into slot `index`. -/
theorem insert_search_bracket_and_shift {α : Type} (s : SimState α)
    (src i j : ℕ) (hNt : NegTrans s.Fn) (hsrc : s.N < src) (hij : i ≤ j)
    (hj : j ≤ s.N)
    (hsort : ∀ k, i ≤ k → k < j → s.Fn (s.pts (k + 1)) (s.pts k) = false)
    (hbr : Bracket (fun h => s.Fn (s.pts src) (s.pts h)) i j) :
    (∀ i2 j2, Bracket (fun h => s.Fn (s.pts src) (s.pts h)) i2 j2 →
        Bracket (fun h => s.Fn (s.pts src) (s.pts h))
          (bstep (fun h => s.Fn (s.pts src) (s.pts h)) i2 j2).1
          (bstep (fun h => s.Fn (s.pts src) (s.pts h)) i2 j2).2) ∧
    (i ≤ bsearch (fun h => s.Fn (s.pts src) (s.pts h)) i j ∧
      bsearch (fun h => s.Fn (s.pts src) (s.pts h)) i j ≤ j) ∧
    (s.Fn (s.pts src) (s.pts (bsearch (fun h => s.Fn (s.pts src) (s.pts h)) i j)) = true ∧
      ∀ k, i ≤ k → k < bsearch (fun h => s.Fn (s.pts src) (s.pts h)) i j →
        s.Fn (s.pts src) (s.pts k) = false) ∧
    (∀ k, (s.Insert src i j).pts k =
      (if k = bsearch (fun h => s.Fn (s.pts src) (s.pts h)) i j then s.pts src
       else if k ≤ s.N then
         (if k ≤ bsearch (fun h => s.Fn (s.pts src) (s.pts h)) i j then s.pts k
          else s.pts (k - 1))
       else s.pts k)) := by
  refine ⟨fun i2 j2 h => bstep_bracket h,
    ⟨bsearch_le_left (fun h => s.Fn (s.pts src) (s.pts h)) i j,
     bsearch_le_right (fun h => s.Fn (s.pts src) (s.pts h)) hij⟩,
    ⟨bsearch_pred_true (fun h => s.Fn (s.pts src) (s.pts h)) hij hbr.2,
     bsearch_min (fun h => s.Fn (s.pts src) (s.pts h))
       (mono_of_sorted hNt src i j hsort)⟩,
    fun k => Insert_pts hsrc k⟩

theorem insert_search_bracket_and_shift_witness :
    NegTrans csA.Fn ∧ Bracket (fun h => csA.Fn (csA.pts 4) (csA.pts h)) 1 1 ∧
    (csA.Fn (csA.pts 4) (csA.pts (bsearch (fun h => csA.Fn (csA.pts 4) (csA.pts h)) 1 1)) = true ∧
      ∀ k, 1 ≤ k → k < bsearch (fun h => csA.Fn (csA.pts 4) (csA.pts h)) 1 1 →
        csA.Fn (csA.pts 4) (csA.pts k) = false) :=
  ⟨fnW_negtrans, ⟨Or.inr (by decide), by decide⟩,
   (insert_search_bracket_and_shift csA 4 1 1 fnW_negtrans (by decide) (by decide)
     (by decide) (by decide) ⟨Or.inr (by decide), by decide⟩).2.2.1⟩

/-- C3: for every predicate and every starting point, `Minimize` terminates
and returns a point of the same dimension; the loop executes at most the hard
cap of 10000 iterations; the break flag fires exactly when the shrink counter
was just incremented past 10; and when it fires the loop stops at once.
Non-convergence produces no failure signal: the result is always a point. -/
theorem minimize_terminates_within_caps {α : Type} [Field α]
    (fn : List α → List α → Bool) (x : List α) (ε : α) :
    (Minimize fn x ε).length = x.length ∧
    (loop 10000 ((⟨fn, x.length, fun _ => List.replicate x.length 0⟩ : SimState α).Init x ε) 0).2 ≤ 10000 ∧
    (∀ (s : SimState α) (sc : ℕ),
        (iterate s sc).2.2 = true ↔
          ((iterate s sc).2.1 = sc + 1 ∧ 10 < (iterate s sc).2.1)) ∧
    (∀ (fuel : ℕ) (s : SimState α) (sc : ℕ), (iterate s sc).2.2 = true →
        loop (fuel + 1) s sc = ((iterate s sc).1, 1)) := by
  refine ⟨?_, loop_count_le _ _ _, iterate_break_iff, loop_break⟩
  unfold Minimize
  dsimp only
  rw [goCopy_length, List.length_replicate]

theorem minimize_terminates_within_caps_witness :
    (Minimize fnW [1, 2] (1 : Fin 3)).length = 2 :=
  (minimize_terminates_within_caps fnW [1, 2] (1 : Fin 3)).1

/-- C4 as frozen is false on the code: at the concrete dimension-1 state
`csC4` the reflected point beats the best vertex and the expansion does not
beat the reflected point; the iteration inserts the reflected point at
position 0 but leaves the consecutive-shrink counter at its old value 5
instead of resetting it to 0. -/
theorem expansion_reset_counterexample :
    ((csC4.Centroid.Shift (csC4.N + 2) (csC4.N + 1) csC4.N (-ρ)).Less (csC4.N + 2) 0 = true) ∧
    ((csC4.Centroid.Shift (csC4.N + 2) (csC4.N + 1) csC4.N (-ρ)).Shift
        (csC4.N + 3) (csC4.N + 1) (csC4.N + 2) χ).Less (csC4.N + 3) (csC4.N + 2) = false ∧
    (iterate csC4 5).2.1 = 5 ∧ ¬ (iterate csC4 5).2.1 = 0 := by
  decide

/-- C4 (amended): in every iteration in which the reflected point A ranks
better than the current best vertex, the loop computes the expansion
`B = centroid + χ·(A − centroid)`; if B ranks better than A it inserts B at
position 0 and resets the consecutive-shrink counter, otherwise it inserts A
at position 0 and leaves the counter unchanged. -/
theorem expansion_branch_resets_only_on_B {α : Type} [Field α] (s : SimState α)
    (sc : ℕ) (hwf : WFS s)
    (hw : ((s.Centroid).Shift (s.N + 2) (s.N + 1) s.N (-ρ)).Less (s.N + 2) 0 = true) :
    (∀ i, i < s.N →
      ((((s.Centroid).Shift (s.N + 2) (s.N + 1) s.N (-ρ)).Shift
          (s.N + 3) (s.N + 1) (s.N + 2) χ).pts (s.N + 3)).getD i 0 =
        (((s.Centroid).Shift (s.N + 2) (s.N + 1) s.N (-ρ)).pts (s.N + 1)).getD i 0 +
          χ * ((((s.Centroid).Shift (s.N + 2) (s.N + 1) s.N (-ρ)).pts (s.N + 2)).getD i 0 -
            (((s.Centroid).Shift (s.N + 2) (s.N + 1) s.N (-ρ)).pts (s.N + 1)).getD i 0)) ∧
    iterate s sc =
      (let s2 := (s.Centroid).Shift (s.N + 2) (s.N + 1) s.N (-ρ)
       let s3 := s2.Shift (s.N + 3) (s.N + 1) (s.N + 2) χ
       if s3.Less (s.N + 3) (s.N + 2) = true then (s3.Insert (s.N + 3) 0 0, 0, false)
       else (s3.Insert (s.N + 2) 0 0, sc, false)) := by
  constructor
  · intro i hi
    have hwf2 : WFS ((s.Centroid).Shift (s.N + 2) (s.N + 1) s.N (-ρ)) :=
      WFS_Shift (WFS_Centroid hwf) _ _ _ _
    have h1 : i < (((s.Centroid).Shift (s.N + 2) (s.N + 1) s.N (-ρ)).pts (s.N + 1)).length := by
      rw [hwf2 (s.N + 1)]; exact hi
    have h2 : i < (((s.Centroid).Shift (s.N + 2) (s.N + 1) s.N (-ρ)).pts (s.N + 2)).length := by
      rw [hwf2 (s.N + 2)]; exact hi
    rw [Shift_pts_self, getD_zipWith 0 h1 h2]
    ring
  · exact iterate_winner_eq s sc hw

theorem expansion_branch_resets_only_on_B_witness :
    WFS csC4 ∧
    ((csC4.Centroid.Shift (csC4.N + 2) (csC4.N + 1) csC4.N (-ρ)).Less (csC4.N + 2) 0 = true) ∧
    iterate csC4 5 =
      (let s2 := (csC4.Centroid).Shift (csC4.N + 2) (csC4.N + 1) csC4.N (-ρ)
       let s3 := s2.Shift (csC4.N + 3) (csC4.N + 1) (csC4.N + 2) χ
       if s3.Less (csC4.N + 3) (csC4.N + 2) = true then (s3.Insert (csC4.N + 3) 0 0, 0, false)
       else (s3.Insert (csC4.N + 2) 0 0, 5, false)) :=
  ⟨fun _ => rfl, by decide,
   (expansion_branch_resets_only_on_B csC4 5 (fun _ => rfl) (by decide)).2⟩

theorem map_getD_range {β : Type} (l : List β) (d : β) :
    (List.range l.length).map (fun k => l.getD k d) = l := by
  apply List.ext_getElem
  · simp
  · intro i h1 h2
    have hi : i < l.length := h2
    rw [List.getElem_map, List.getElem_range, List.getD_eq_getElem _ _ hi]

/-- C7 as frozen is false on the code: `Init` leaves vertex `n` (not vertex 0)
unchanged.  At dimension 1 with `x0 = [1]` and `ε = 1`, the vertex-building
loop puts `[1 + ε] = [2]` into vertex 0, not `x0 = [1]`. -/
theorem init_vertex_zero_counterexample :
    csI.InitPts [1] 1 0 = [2] ∧ ¬ (csI.InitPts [1] 1 0 = [1]) := by
  constructor
  · decide
  · decide

/-- C7 (amended): `Init(x0, ε)` builds `n+1` vertices with vertex `k`
(`0 ≤ k < n`) equal to `x0` with coordinate `k` perturbed by `+ε` and vertex
`n` equal to `x0` unchanged (so the multiset of vertices is
`{x0} ∪ {x0 + ε·e_k}`), and then sorts all `n+1` vertices ascending by the
predicate. -/
theorem init_builds_perturbed_vertices_and_sorts {α : Type} [Field α]
    (s : SimState α) (x : List α) (ε : α) (hA : Asymm s.Fn) (hNt : NegTrans s.Fn)
    (hwf : WFS s) (hx : x.length = s.N) :
    (∀ k, k < s.N → s.InitPts x ε k = x.set k (x.getD k 0 + ε)) ∧
    (s.InitPts x ε s.N = x) ∧
    (s.Init x ε = SimState.sortVerts { s with pts := s.InitPts x ε }) ∧
    (List.Perm ((List.range (s.N + 1)).map (s.Init x ε).pts)
      ((List.range s.N).map (fun k => x.set k (x.getD k 0 + ε)) ++ [x])) ∧
    SortedS (s.Init x ε) := by
  have hcopy : ∀ k, goCopy (s.pts k) x = x := by
    intro k
    exact goCopy_of_length_eq (by rw [hx, hwf k])
  have hbuild : ∀ k, k < s.N → s.InitPts x ε k = x.set k (x.getD k 0 + ε) := by
    intro k hk
    unfold SimState.InitPts
    dsimp only
    rw [if_pos (by omega), if_pos hk, hcopy k]
  have hlast : s.InitPts x ε s.N = x := by
    unfold SimState.InitPts
    dsimp only
    rw [if_pos le_rfl, if_neg (by omega), hcopy s.N]
  refine ⟨hbuild, hlast, rfl, ?_, ?_⟩
  · -- the sorted vertices are a permutation of the built ones
    set t : SimState α := { s with pts := s.InitPts x ε } with ht
    have hvm : (List.range (t.N + 1)).map t.sortVerts.pts = t.sortedVerts := by
      have hlen : t.sortedVerts.length = t.N + 1 := sortedVerts_length t
      have h1 : (List.range (t.N + 1)).map t.sortVerts.pts =
          (List.range (t.N + 1)).map (fun k => t.sortedVerts.getD k []) := by
        apply List.map_congr_left
        intro k hk
        exact sortVerts_pts_le (by have := List.mem_range.mp hk; omega)
      rw [h1]
      have := map_getD_range t.sortedVerts []
      rw [hlen] at this
      exact this
    have hperm : List.Perm t.sortedVerts t.verts :=
      List.perm_insertionSort _ _
    have hverts : t.verts = (List.range s.N).map (fun k => x.set k (x.getD k 0 + ε)) ++ [x] := by
      unfold SimState.verts
      show (List.range (s.N + 1)).map (s.InitPts x ε) = _
      rw [List.range_succ, List.map_append]
      congr 1
      · apply List.map_congr_left
        intro k hk
        exact hbuild k (List.mem_range.mp hk)
      · simp [hlast]
    show List.Perm ((List.range (s.N + 1)).map t.sortVerts.pts) _
    rw [hvm, ← hverts]
    exact hperm
  · exact sortVerts_sorted hA hNt

theorem init_builds_perturbed_vertices_and_sorts_witness :
    WFS csI ∧ csI.InitPts [1] 1 csI.N = [1] ∧ SortedS (csI.Init [1] 1) :=
  ⟨fun _ => rfl,
   (init_builds_perturbed_vertices_and_sorts csI [1] 1 fnW_asymm fnW_negtrans
     (fun _ => rfl) rfl).2.1,
   (init_builds_perturbed_vertices_and_sorts csI [1] 1 fnW_asymm fnW_negtrans
     (fun _ => rfl) rfl).2.2.2.2⟩

/-- C8: `Centroid()` stores in the scratch slot `n+1` the coordinate-wise mean
of vertices `0..n-1` (excluding the current worst vertex `n`); for dimension
`n = 1` the centroid is exactly a copy of vertex 0. -/
theorem centroid_is_mean_of_best_n {α : Type} [Field α] (s : SimState α)
    (hwf : WFS s) :
    ((s.Centroid).pts (s.N + 1)).length = s.N ∧
    (∀ i, i < s.N →
      ((s.Centroid).pts (s.N + 1)).getD i 0 =
        ((List.range s.N).map (fun k => (s.pts k).getD i (0 : α))).sum / (s.N : α)) ∧
    (s.N = 1 → (s.Centroid).pts (s.N + 1) = s.pts 0) := by
  have hspec := Centroid_spec s (fun k _ => hwf k)
  refine ⟨hspec.1, hspec.2, ?_⟩
  intro h1
  apply List.ext_getElem
  · rw [hspec.1, hwf 0]
  · intro i hi1 hi2
    have hi : i < s.N := by rw [hspec.1] at hi1; exact hi1
    rw [← List.getD_eq_getElem _ (0 : α) hi1, ← List.getD_eq_getElem _ (0 : α) hi2,
      hspec.2 i hi, h1]
    simp [List.range_succ]

theorem centroid_is_mean_of_best_n_witness :
    WFS csC4 ∧ csC4.Centroid.pts 2 = csC4.pts 0 :=
  ⟨fun _ => rfl, (centroid_is_mean_of_best_n csC4 (fun _ => rfl)).2.2 rfl⟩

/-- C10: `Minimize` returns the coordinates of vertex 0 of the state at loop
exit, copied into a freshly built vector of the same dimension as the start
point `x` (in this value-level model the copy `goCopy (replicate n 0) ·`
collapses to the point itself; the Go program obtains the same value in a
newly allocated slice, and `x` itself is only ever read). -/
theorem minimize_returns_fresh_copy {α : Type} [Field α]
    (fn : List α → List α → Bool) (x : List α) (ε : α) :
    Minimize fn x ε =
      (loop 10000 ((⟨fn, x.length, fun _ => List.replicate x.length 0⟩ : SimState α).Init x ε) 0).1.pts 0 ∧
    (Minimize fn x ε).length = x.length := by
  have hwf0 : WFS (⟨fn, x.length, fun _ => List.replicate x.length 0⟩ : SimState α) := by
    intro k
    simp
  have hwf1 := WFS_Init hwf0 x ε
  have hwfl := WFS_loop 10000 _ 0 hwf1
  have hN : (loop 10000 ((⟨fn, x.length, fun _ => List.replicate x.length 0⟩ : SimState α).Init x ε) 0).1.N = x.length := by
    rw [loop_N]
    rfl
  have hlen : ((loop 10000 ((⟨fn, x.length, fun _ => List.replicate x.length 0⟩ : SimState α).Init x ε) 0).1.pts 0).length = x.length := by
    rw [hwfl 0, hN]
  constructor
  · show goCopy (List.replicate x.length 0) _ = _
    exact goCopy_of_length_eq (by rw [hlen, List.length_replicate])
  · show (goCopy (List.replicate x.length 0) _).length = x.length
    rw [goCopy_length, List.length_replicate]

/-! The evaluation cache (`wrapper.Get`, `simplex.go:291-328`).  The Go
wrapper keeps a flat `cache []float64` of `(n+1)*(n+4)` cells: `n+4` blocks of
stride `n+1`, each holding `n` coordinates followed by the cached value.  The
search loop `for base := 0; base+n < len(cache); base += stride` visits
exactly those `n+4` blocks in order, and every `copy` in `Get` is
block-aligned (the hit path moves blocks `0..k-1` up by one block, the miss
path `copy(cache[stride:], cache[0:])` moves every block up by one, dropping
the last).  The cache is therefore embedded as a list of `n+4` blocks. -/

/-- One cache cell: either the NaN sentinel written by the lazy initialiser
(`math.NaN()`), or an ordinary value.  Go's `!=` on floats treats NaN as
unequal to everything, including itself. -/
inductive F where
  | nan : F
  | val : ℚ → F
deriving DecidableEq

/-- The Go comparison `cache[base+i] == x[i]`: false against the NaN
sentinel, exact equality otherwise (the cache uses no tolerance). -/
def cellEq (c : F) (q : ℚ) : Bool :=
  match c with
  | F.nan => false
  | F.val a => decide (a = q)

/-- The inner matching loop of `Get`: block `b` matches query `x` when all
`n` stored coordinates compare equal (`continue search` fires otherwise). -/
def blockEq (n : ℕ) (x : List ℚ) (b : List F) : Bool :=
  (List.range n).all fun i => cellEq (b.getD i F.nan) (x.getD i 0)

/-- A freshly written cache block: the `n` coordinates of `x` followed by the
cached value `r` (`copy(cache[:n], x); cache[n] = res`). -/
def mkBlock (x : List ℚ) (r : ℚ) : List F :=
  x.map F.val ++ [F.val r]

/-- The lazily initialised cache: `n+4` blocks of `n+1` cells, all set to the
NaN sentinel (`simplex.go:292-301`). -/
def initCache (n : ℕ) : List (List F) :=
  List.replicate (n + 4) (List.replicate (n + 1) F.nan)

/-- The Go `wrapper` struct (`simplex.go:283-289`): the raw objective `f`,
the remembered dimension `n`, and the cache (empty before the first `Get`;
`tmp` is pure scratch and needs no counterpart at the value level). -/
structure Wrapper where
  f : List ℚ → ℚ
  n : ℕ
  cache : List (List F)

/-- The scan of the `search:` loop: index of the first matching block. -/
def findBlock (p : List F → Bool) : List (List F) → Option ℕ
  | [] => none
  | b :: bs => if p b then some 0 else (findBlock p bs).map (· + 1)

/-- Method `wrapper.Get(x)` (`simplex.go:291-328`).  Returns the value Go
returns, the wrapper state afterwards, and whether the raw objective was
invoked.  On a hit at block `k` the block is moved to the front
(blocks `0..k-1` shift up by one) and its stored value is returned without
calling `f`; on a miss `f` is evaluated, every block shifts up by one (the
least recently used block falls off) and the new block is written at the
front. -/
def Wrapper.get (w : Wrapper) (x : List ℚ) : F × Wrapper × Bool :=
  let w1 : Wrapper := if w.cache.isEmpty then ⟨w.f, x.length, initCache x.length⟩ else w
  match findBlock (blockEq w1.n x) w1.cache with
  | some k =>
    let blk := w1.cache.getD k []
    (blk.getD w1.n F.nan,
     ⟨w1.f, w1.n, blk :: (w1.cache.take k ++ w1.cache.drop (k + 1))⟩, false)
  | none =>
    let r := w1.f x
    (F.val r, ⟨w1.f, w1.n, mkBlock x r :: w1.cache.dropLast⟩, true)

/-- A sequence of `Get` calls, collecting each returned value and whether the
objective was invoked for it. -/
def runGets (w : Wrapper) : List (List ℚ) → Wrapper × List (F × Bool)
  | [] => (w, [])
  | x :: xs =>
    let g := w.get x
    let rest := runGets g.2.1 xs
    (rest.1, (g.1, g.2.2) :: rest.2)

theorem findBlock_none {p : List F → Bool} :
    ∀ {l : List (List F)}, findBlock p l = none ↔ ∀ b ∈ l, p b = false := by
  intro l
  induction l with
  | nil => simp [findBlock]
  | cons b bs ih =>
    unfold findBlock
    rcases hb : p b with _ | _
    · rw [if_neg (by simp)]
      constructor
      · intro h c hc
        rcases List.mem_cons.mp hc with hc | hc
        · rw [hc]; exact hb
        · refine ih.mp ?_ c hc
          cases hfb : findBlock p bs
          · rfl
          · rw [hfb] at h; simp at h
      · intro h
        rw [ih.mpr (fun c hc => h c (List.mem_cons.mpr (Or.inr hc)))]
        rfl
    · rw [if_pos rfl]
      constructor
      · intro h; exact absurd h (by simp)
      · intro h
        have hfalse := h b (List.mem_cons.mpr (Or.inl rfl))
        rw [hb] at hfalse
        simp at hfalse

theorem findBlock_some {p : List F → Bool} :
    ∀ {l : List (List F)} {k : ℕ}, findBlock p l = some k →
      k < l.length ∧ p (l.getD k []) = true := by
  intro l
  induction l with
  | nil => intro k h; simp [findBlock] at h
  | cons b bs ih =>
    intro k h
    unfold findBlock at h
    rcases hb : p b with _ | _
    · rw [hb, if_neg (by simp)] at h
      cases hfb : findBlock p bs with
      | none => rw [hfb] at h; simp at h
      | some k2 =>
        rw [hfb] at h
        simp only [Option.map_some'] at h
        rcases Option.some_inj.mp h with rfl
        rcases ih hfb with ⟨h1, h2⟩
        exact ⟨by simp; omega, h2⟩
    · rw [hb, if_pos rfl] at h
      rcases Option.some_inj.mp h with rfl
      exact ⟨by simp, by simpa using hb⟩

/-- Unwritten (sentinel) blocks match no query of positive dimension. -/
theorem blockEq_nan_replicate {n m : ℕ} (hn : 1 ≤ n) (y : List ℚ) :
    blockEq n y (List.replicate m F.nan) = false := by
  rcases h : blockEq n y (List.replicate m F.nan) with _ | _
  · rfl
  · exfalso
    have h0 := List.all_eq_true.mp h 0 (List.mem_range.mpr (by omega))
    have : (List.replicate m F.nan).getD 0 F.nan = F.nan := by
      cases m with
      | zero => rfl
      | succ m => rfl
    rw [this] at h0
    simp [cellEq] at h0

/-- A written block matches exactly the coordinates it was written from. -/
theorem blockEq_mkBlock {n : ℕ} {p q : List ℚ} (r : ℚ)
    (hp : p.length = n) (hq : q.length = n) :
    blockEq n q (mkBlock p r) = true ↔ p = q := by
  unfold blockEq mkBlock
  rw [List.all_eq_true]
  constructor
  · intro h
    apply List.ext_getElem (by omega)
    intro i hi1 hi2
    have hii : i < n := by omega
    have := h i (List.mem_range.mpr hii)
    have hb : (p.map F.val ++ [F.val r]).getD i F.nan = F.val (p.getD i 0) := by
      rw [List.getD_append _ _ _ _ (by rw [List.length_map]; omega),
        List.getD_eq_getElem _ _ (by rw [List.length_map]; omega),
        List.getElem_map, List.getD_eq_getElem _ _ (by omega)]
    rw [hb] at this
    simp only [cellEq, decide_eq_true_eq] at this
    rw [List.getD_eq_getElem _ _ hi1, List.getD_eq_getElem _ _ hi2] at this
    exact this
  · intro h i hi
    have hii : i < n := List.mem_range.mp hi
    subst h
    have hb : (p.map F.val ++ [F.val r]).getD i F.nan = F.val (p.getD i 0) := by
      rw [List.getD_append _ _ _ _ (by rw [List.length_map]; omega),
        List.getD_eq_getElem _ _ (by rw [List.length_map]; omega),
        List.getElem_map, List.getD_eq_getElem _ _ (by omega)]
    rw [hb]
    simp [cellEq]

/-- The stored value sits at offset `n` of a written block. -/
theorem mkBlock_getD_val {n : ℕ} {x : List ℚ} (r : ℚ) (hx : x.length = n) :
    (mkBlock x r).getD n F.nan = F.val r := by
  unfold mkBlock
  rw [List.getD_eq_getElem _ _ (by rw [List.length_append, List.length_map]; simp; omega)]
  rw [List.getElem_append_right (by rw [List.length_map]; omega)]
  simp [hx]

/-- Miss equation for `Get` on an already-initialised cache. -/
theorem get_miss {w : Wrapper} {x : List ℚ} (hne : w.cache ≠ [])
    (hmiss : ∀ b ∈ w.cache, blockEq w.n x b = false) :
    w.get x = (F.val (w.f x), ⟨w.f, w.n, mkBlock x (w.f x) :: w.cache.dropLast⟩, true) := by
  unfold Wrapper.get
  rw [if_neg (by simp [hne])]
  dsimp only
  rw [findBlock_none.mpr hmiss]

/-- Hit equation for `Get` on an already-initialised cache: the matched block
moves to the front and its stored value is returned without calling `f`. -/
theorem get_hit {w : Wrapper} {x : List ℚ} {k : ℕ} (hne : w.cache ≠ [])
    (hk : findBlock (blockEq w.n x) w.cache = some k) :
    w.get x = ((w.cache.getD k []).getD w.n F.nan,
      ⟨w.f, w.n, w.cache.getD k [] :: (w.cache.take k ++ w.cache.drop (k + 1))⟩,
      false) := by
  unfold Wrapper.get
  rw [if_neg (by simp [hne])]
  dsimp only
  rw [hk]

/-- First `Get` on a fresh wrapper: the cache is lazily initialised with the
dimension of the query, no sentinel block matches, and the objective runs. -/
theorem get_fresh (f : List ℚ → ℚ) (m : ℕ) (x : List ℚ) (hx : 1 ≤ x.length) :
    (⟨f, m, []⟩ : Wrapper).get x =
      (F.val (f x),
       ⟨f, x.length, mkBlock x (f x) :: (initCache x.length).dropLast⟩, true) := by
  unfold Wrapper.get
  rw [if_pos (by simp)]
  dsimp only
  have hmiss : ∀ b ∈ initCache x.length, blockEq x.length x b = false := by
    intro b hb
    rw [List.eq_of_mem_replicate hb]
    exact blockEq_nan_replicate hx x
  rw [findBlock_none.mpr hmiss]

/-- Well-formedness of a live cache: initialised, `n+4` blocks of `n+1`
cells, and every block that matches a query of the right dimension stores the
objective's value at that query (the fundamental cache-coherence fact). -/
def GoodW (w : Wrapper) : Prop :=
  w.cache ≠ [] ∧ w.cache.length = w.n + 4 ∧ (∀ b ∈ w.cache, b.length = w.n + 1) ∧
  (∀ b ∈ w.cache, ∀ y : List ℚ, y.length = w.n → blockEq w.n y b = true →
    b.getD w.n F.nan = F.val (w.f y))

/-- The freshly initialised cache is well-formed (its sentinel blocks match
nothing). -/
theorem GoodW_init (f : List ℚ → ℚ) (n : ℕ) (hn : 1 ≤ n) :
    GoodW ⟨f, n, initCache n⟩ := by
  refine ⟨by simp [initCache], by simp [initCache], ?_, ?_⟩
  · intro b hb
    rw [List.eq_of_mem_replicate hb]
    simp
  · intro b hb y _ hbe
    rw [List.eq_of_mem_replicate hb, blockEq_nan_replicate hn] at hbe
    exact absurd hbe (by simp)

/-- The objective used for concrete cache runs: first coordinate. -/
def fq : List ℚ → ℚ := fun l => l.getD 0 0

/-- A concrete initialised wrapper of dimension 1. -/
def cw : Wrapper := ⟨fq, 1, initCache 1⟩

/-- C5 as frozen is false on the code: with dimension 1 the cache holds
`n+4 = 5` entries, so after the six distinct queries `[0]..[5]` the entry for
`[0]` has been evicted, and the seventh call — whose coordinates are
identical to those of the first call — invokes the objective again. -/
theorem cache_repeat_reevaluates_counterexample :
    ([[0], [1], [2], [3], [4], [5], [(0 : ℚ)]].getD 6 [] =
      [[0], [1], [2], [3], [4], [5], [(0 : ℚ)]].getD 0 []) ∧
    ((runGets ⟨fq, 0, []⟩ [[0], [1], [2], [3], [4], [5], [0]]).2.getD 0 (F.nan, false)).2 = true ∧
    ((runGets ⟨fq, 0, []⟩ [[0], [1], [2], [3], [4], [5], [0]]).2.getD 6 (F.nan, false)).2 = true := by
  refine ⟨by decide, by decide, by decide⟩

/-- C5 (amended): against a well-formed cache, `Get` always returns the
objective's value at the query (so a repeat of an earlier query returns the
exact same value); it does so without invoking the objective precisely when a
cache entry matching the coordinates is still present — an entry may have
been evicted, after which the repeat is recomputed —, and a call with no
matching entry (in particular one differing from every cached point in some
coordinate) invokes the objective; well-formedness is preserved. -/
theorem cache_get_value_and_hit_iff (w : Wrapper) (x : List ℚ)
    (hg : GoodW w) (hx : x.length = w.n) :
    ((w.get x).1 = F.val (w.f x)) ∧
    ((w.get x).2.2 = false ↔ ∃ b ∈ w.cache, blockEq w.n x b = true) ∧
    GoodW (w.get x).2.1 ∧ (w.get x).2.1.f = w.f ∧ (w.get x).2.1.n = w.n := by
  rcases hg with ⟨hne, hlen, hblen, hval⟩
  cases hfb : findBlock (blockEq w.n x) w.cache with
  | none =>
    rw [get_miss hne (findBlock_none.mp hfb)]
    have hlen1 : w.cache.length = w.n + 4 := hlen
    refine ⟨rfl, ?_, ?_, rfl, rfl⟩
    · constructor
      · intro h; exact absurd h (by simp)
      · intro ⟨b, hb, hbe⟩
        have := findBlock_none.mp hfb b hb
        rw [this] at hbe
        exact absurd hbe (by simp)
    · refine ⟨by simp, ?_, ?_, ?_⟩
      · show (mkBlock x (w.f x) :: w.cache.dropLast).length = w.n + 4
        rw [List.length_cons, List.length_dropLast, hlen1]
        omega
      · intro b hb
        rcases List.mem_cons.mp hb with hb | hb
        · rw [hb]
          show (x.map F.val ++ [F.val (w.f x)]).length = w.n + 1
          rw [List.length_append, List.length_map, hx]
          rfl
        · exact hblen b (List.mem_of_mem_dropLast hb)
      · intro b hb y hy hbe
        rcases List.mem_cons.mp hb with hb | hb
        · subst hb
          have hxy : x = y := (blockEq_mkBlock _ hx hy).mp hbe
          subst hxy
          exact mkBlock_getD_val _ hx
        · exact hval b (List.mem_of_mem_dropLast hb) y hy hbe
  | some k =>
    rcases findBlock_some hfb with ⟨hk, hpk⟩
    rw [get_hit hne hfb]
    have hmem : w.cache.getD k [] ∈ w.cache := by
      rw [List.getD_eq_getElem _ _ hk]
      exact List.getElem_mem hk
    refine ⟨hval _ hmem x hx hpk, ?_, ?_, rfl, rfl⟩
    · constructor
      · intro _; exact ⟨w.cache.getD k [], hmem, hpk⟩
      · intro _; rfl
    · refine ⟨by simp, ?_, ?_, ?_⟩
      · show (w.cache.getD k [] :: (w.cache.take k ++ w.cache.drop (k + 1))).length = w.n + 4
        rw [List.length_cons, List.length_append, List.length_take, List.length_drop, hlen]
        omega
      · intro b hb
        rcases List.mem_cons.mp hb with hb | hb
        · rw [hb]; exact hblen _ hmem
        · rcases List.mem_append.mp hb with hb | hb
          · exact hblen b (List.mem_of_mem_take hb)
          · exact hblen b (List.mem_of_mem_drop hb)
      · intro b hb y hy hbe
        rcases List.mem_cons.mp hb with hb | hb
        · subst hb; exact hval _ hmem y hy hbe
        · rcases List.mem_append.mp hb with hb | hb
          · exact hval b (List.mem_of_mem_take hb) y hy hbe
          · exact hval b (List.mem_of_mem_drop hb) y hy hbe

theorem cache_get_value_and_hit_iff_witness :
    GoodW cw ∧ (cw.get [5]).1 = F.val (fq [5]) ∧ GoodW (cw.get [5]).2.1 :=
  ⟨GoodW_init fq 1 (by decide),
   (cache_get_value_and_hit_iff cw [5] (GoodW_init fq 1 (by decide)) rfl).1,
   (cache_get_value_and_hit_iff cw [5] (GoodW_init fq 1 (by decide)) rfl).2.2.1⟩

/-- C9: a `Get` against a cache with no valid entries never reports a hit:
the very first call — for any non-empty query point, including the all-zero
point, which must not match the zero-initialised backing store — invokes the
objective and returns its value, because every unwritten slot holds the NaN
sentinel and the sentinel compares unequal to every query coordinate. -/
theorem cache_first_get_always_evaluates (f : List ℚ → ℚ) (m : ℕ) (x : List ℚ)
    (hx : x ≠ []) :
    ((⟨f, m, []⟩ : Wrapper).get x).2.2 = true ∧
    ((⟨f, m, []⟩ : Wrapper).get x).1 = F.val (f x) ∧
    (∀ n y b, 1 ≤ n → b ∈ initCache n → blockEq n y b = false) := by
  have hx1 : 1 ≤ x.length := List.length_pos.mpr hx
  rw [get_fresh f m x hx1]
  refine ⟨rfl, rfl, ?_⟩
  intro n y b hn hb
  rw [List.eq_of_mem_replicate hb]
  exact blockEq_nan_replicate hn y

theorem cache_first_get_always_evaluates_witness :
    ((⟨fq, 0, []⟩ : Wrapper).get [0]).2.2 = true ∧
    ((⟨fq, 0, []⟩ : Wrapper).get [0]).1 = F.val (fq [0]) :=
  ⟨(cache_first_get_always_evaluates fq 0 [0] (by decide)).1,
   (cache_first_get_always_evaluates fq 0 [0] (by decide)).2.1⟩

theorem take_append_take {β : Type} (L : ℕ) (X Y : List β) :
    (X ++ Y.take L).take L = (X ++ Y).take L := by
  rw [List.take_append_eq_append_take, List.take_append_eq_append_take, List.take_take]
  congr 1
  rw [min_eq_left (Nat.sub_le L X.length)]

/-- Running a sequence of pairwise-distinct queries that all miss the current
cache: every call is a miss, and the cache afterwards holds the new blocks in
reverse query order in front of what remains of the old cache, truncated to
the fixed capacity. -/
theorem runGets_allMiss :
    ∀ (ps : List (List ℚ)) (w : Wrapper), w.cache ≠ [] →
      (∀ q ∈ ps, q.length = w.n) →
      (∀ q ∈ ps, ∀ b ∈ w.cache, blockEq w.n q b = false) →
      ps.Pairwise (· ≠ ·) →
      (runGets w ps).1 =
        ⟨w.f, w.n,
          ((ps.reverse.map (fun q => mkBlock q (w.f q))) ++ w.cache).take w.cache.length⟩ := by
  intro ps
  induction ps with
  | nil =>
    intro w hne _ _ _
    show w = _
    cases w with
    | mk f n c => simp [runGets, List.take_length]
  | cons p ps ih =>
    intro w hne hlen hnm hd
    have hp : p.length = w.n := hlen p (by simp)
    have hmiss : ∀ b ∈ w.cache, blockEq w.n p b = false := hnm p (by simp)
    have hlen2 : ∀ q ∈ ps, q.length = w.n := fun q hq => hlen q (by simp [hq])
    have hnm2 : ∀ q ∈ ps, ∀ b ∈ (mkBlock p (w.f p) :: w.cache.dropLast),
        blockEq w.n q b = false := by
      intro q hq b hb
      rcases List.mem_cons.mp hb with hb | hb
      · subst hb
        have hpq : p ≠ q := (List.pairwise_cons.mp hd).1 q hq
        rcases hbe : blockEq w.n q (mkBlock p (w.f p)) with _ | _
        · rfl
        · exact absurd ((blockEq_mkBlock _ hp (hlen2 q hq)).mp hbe) hpq
      · exact hnm q (by simp [hq]) b (List.mem_of_mem_dropLast hb)
    have hd2 := (List.pairwise_cons.mp hd).2
    have hcne : w.cache.length ≠ 0 := by
      simpa [List.length_eq_zero] using hne
    unfold runGets
    dsimp only
    rw [get_miss hne hmiss]
    dsimp only
    rw [ih ⟨w.f, w.n, mkBlock p (w.f p) :: w.cache.dropLast⟩ (by simp) hlen2 hnm2 hd2]
    dsimp only
    have hL : (mkBlock p (w.f p) :: w.cache.dropLast).length = w.cache.length := by
      rw [List.length_cons, List.length_dropLast]
      omega
    have hdrop : mkBlock p (w.f p) :: w.cache.dropLast
        = (mkBlock p (w.f p) :: w.cache).take w.cache.length := by
      cases hc : w.cache with
      | nil => exact absurd hc hne
      | cons c cs =>
        rw [List.dropLast_eq_take]
        simp
    show (⟨w.f, w.n, _⟩ : Wrapper) = ⟨w.f, w.n, _⟩
    congr 1
    rw [hL, hdrop, take_append_take, List.reverse_cons, List.map_append]
    simp [List.append_assoc]

/-- C6: the cache holds exactly `n+4` entries in recency order — a miss
prepends the new block and drops the least-recently-used one, a hit moves the
matched block to the front — and after more than `n+4` pairwise-distinct
points have been queried the least-recently-used entry (the first point) has
been evicted, so a subsequent repeat `Get` for it invokes the objective
afresh. -/
theorem cache_capacity_and_eviction :
    (∀ (w : Wrapper) (x : List ℚ), GoodW w → x.length = w.n →
      (w.get x).2.1.cache.length = w.n + 4 ∧
      ((w.get x).2.1.cache = mkBlock x (w.f x) :: w.cache.dropLast ∨
        ∃ k, findBlock (blockEq w.n x) w.cache = some k ∧
          (w.get x).2.1.cache =
            w.cache.getD k [] :: (w.cache.take k ++ w.cache.drop (k + 1)))) ∧
    (∀ (f : List ℚ → ℚ) (n : ℕ) (p0 : List ℚ) (rest : List (List ℚ)),
      1 ≤ n → (∀ q ∈ p0 :: rest, q.length = n) →
      (p0 :: rest).Pairwise (· ≠ ·) → rest.length = n + 4 →
      (((runGets ⟨f, 0, []⟩ (p0 :: rest)).1).get p0).2.2 = true) := by
  constructor
  · intro w x hg hx
    rcases hg with ⟨hne, hlen, _, _⟩
    cases hfb : findBlock (blockEq w.n x) w.cache with
    | none =>
      rw [get_miss hne (findBlock_none.mp hfb)]
      refine ⟨?_, Or.inl rfl⟩
      show (mkBlock x (w.f x) :: w.cache.dropLast).length = w.n + 4
      rw [List.length_cons, List.length_dropLast, hlen]
      omega
    | some k =>
      rcases findBlock_some hfb with ⟨hk, _⟩
      rw [get_hit hne hfb]
      refine ⟨?_, Or.inr ⟨k, rfl, rfl⟩⟩
      show (w.cache.getD k [] :: (w.cache.take k ++ w.cache.drop (k + 1))).length = w.n + 4
      rw [List.length_cons, List.length_append, List.length_take, List.length_drop, hlen]
      omega
  · intro f n p0 rest hn hlen hd hr
    have hp0 : p0.length = n := hlen p0 (by simp)
    have hrest : ∀ q ∈ rest, q.length = n := fun q hq => hlen q (by simp [hq])
    have hstep1 : (runGets (⟨f, 0, []⟩ : Wrapper) (p0 :: rest)).1 =
        (runGets ⟨f, p0.length, mkBlock p0 (f p0) :: (initCache p0.length).dropLast⟩ rest).1 := by
      show (runGets ((⟨f, 0, []⟩ : Wrapper).get p0).2.1 rest).1 = _
      rw [get_fresh f 0 p0 (by omega)]
    rw [hstep1, hp0]
    clear hstep1
    have hnm2 : ∀ q ∈ rest, ∀ b ∈ (mkBlock p0 (f p0) :: (initCache n).dropLast),
        blockEq n q b = false := by
      intro q hq b hb
      rcases List.mem_cons.mp hb with hb | hb
      · subst hb
        have hpq : p0 ≠ q := (List.pairwise_cons.mp hd).1 q hq
        rcases hbe : blockEq n q (mkBlock p0 (f p0)) with _ | _
        · rfl
        · exact absurd ((blockEq_mkBlock _ hp0 (hrest q hq)).mp hbe) hpq
      · rw [List.eq_of_mem_replicate (List.mem_of_mem_dropLast hb)]
        exact blockEq_nan_replicate hn q
    have hrun := runGets_allMiss rest
      ⟨f, n, mkBlock p0 (f p0) :: (initCache n).dropLast⟩ (by simp) hrest hnm2
      ((List.pairwise_cons.mp hd).2)
    rw [hrun]
    have hL : (mkBlock p0 (f p0) :: (initCache n).dropLast).length = n + 4 := by
      rw [List.length_cons, List.length_dropLast]
      simp [initCache]
    have hXlen : (rest.reverse.map (fun q => mkBlock q (f q))).length = n + 4 := by
      rw [List.length_map, List.length_reverse, hr]
    have hcache : ((rest.reverse.map (fun q => mkBlock q (f q))) ++
        (mkBlock p0 (f p0) :: (initCache n).dropLast)).take
          (mkBlock p0 (f p0) :: (initCache n).dropLast).length =
        rest.reverse.map (fun q => mkBlock q (f q)) := by
      rw [hL, ← hXlen, List.take_left]
    rw [hcache]
    have hmiss3 : ∀ b ∈ rest.reverse.map (fun q => mkBlock q (f q)),
        blockEq n p0 b = false := by
      intro b hb
      rcases List.mem_map.mp hb with ⟨q, hq, rfl⟩
      have hq2 : q ∈ rest := List.mem_reverse.mp hq
      have hpq : p0 ≠ q := (List.pairwise_cons.mp hd).1 q hq2
      rcases hbe : blockEq n p0 (mkBlock q (f q)) with _ | _
      · rfl
      · exact absurd ((blockEq_mkBlock _ (hrest q hq2) hp0).mp hbe).symm hpq
    have hne3 : (rest.reverse.map (fun q => mkBlock q (f q))) ≠ [] := by
      intro hc
      rw [hc] at hXlen
      simp at hXlen
    rw [get_miss hne3 hmiss3]

theorem cache_capacity_and_eviction_witness :
    (cw.get [5]).2.1.cache.length = cw.n + 4 ∧
    (((runGets ⟨fq, 0, []⟩ [[0], [1], [2], [3], [4], [5]]).1).get [0]).2.2 = true :=
  ⟨(cache_capacity_and_eviction.1 cw [5] (GoodW_init fq 1 (by decide)) rfl).1,
   cache_capacity_and_eviction.2 fq 1 [0] [[1], [2], [3], [4], [5]] (by decide)
     (by decide) (by decide) (by decide)⟩

end Minimize
